import Mathlib

/-!
# Verification of the transaction-processor ledger core

A shallow embedding of the Rust sources (`src/transactions.rs`,
`src/ledger.rs`) of the `transaction_processor` repository, together with
theorems settling the specification claims about it.

Modelling conventions:

* `ClientId` (`u16`) and `TxnId` (`u32`) are embedded as `Nat`; the parser
  enforces the `u16`/`u32` upper bounds exactly where the Rust
  `str::parse` does.
* `Currency` (`bigdecimal::BigDecimal`, an exact arbitrary-precision
  decimal) is embedded as `Rat`: every BigDecimal is a rational, and the
  ledger only ever adds, subtracts and compares amounts — all exact in
  both representations.
* `HashMap` is embedded as an association list whose `insert` replaces the
  value of an existing key in place, `HashSet` as a list whose `insert`
  appends a missing element, and `BTreeSet<TxnId>` as a strictly sorted
  `List Nat` (matching the BTreeSet iteration order: ascending key order).
-/

abbrev ClientId := Nat
abbrev TxnId := Nat
abbrev Currency := Rat

/-- `BasicTransaction` from `src/transactions.rs`: the two value-bearing
transaction kinds, carrying a mutable `disputed` flag. -/
inductive BasicTransaction where
  | Deposit (client_id : ClientId) (txn_id : TxnId) (amount : Currency) (disputed : Bool)
  | Withdrawal (client_id : ClientId) (txn_id : TxnId) (amount : Currency) (disputed : Bool)
deriving DecidableEq

namespace BasicTransaction

/-- `BasicTransaction::new_dep`. -/
def new_dep (client_id : ClientId) (txn_id : TxnId) (amount : Currency) : BasicTransaction :=
  .Deposit client_id txn_id amount false

/-- `BasicTransaction::new_wit`. -/
def new_wit (client_id : ClientId) (txn_id : TxnId) (amount : Currency) : BasicTransaction :=
  .Withdrawal client_id txn_id amount false

/-- `BasicTransaction::client_id`. -/
def client_id : BasicTransaction → ClientId
  | .Deposit c _ _ _ => c
  | .Withdrawal c _ _ _ => c

/-- `BasicTransaction::txn_id`. -/
def txn_id : BasicTransaction → TxnId
  | .Deposit _ t _ _ => t
  | .Withdrawal _ t _ _ => t

/-- `BasicTransaction::amount`. -/
def amount : BasicTransaction → Currency
  | .Deposit _ _ a _ => a
  | .Withdrawal _ _ a _ => a

/-- `BasicTransaction::disputed`. -/
def disputed : BasicTransaction → Bool
  | .Deposit _ _ _ d => d
  | .Withdrawal _ _ _ d => d

/-- `BasicTransaction::set_disputed`. -/
def set_disputed : BasicTransaction → Bool → BasicTransaction
  | .Deposit c t a _, b => .Deposit c t a b
  | .Withdrawal c t a _, b => .Withdrawal c t a b

end BasicTransaction

/-- `ReferentialTransaction` from `src/transactions.rs`: the three
reference kinds, carrying no amount. -/
inductive ReferentialTransaction where
  | Dispute (client_id : ClientId) (txn_id : TxnId)
  | Resolve (client_id : ClientId) (txn_id : TxnId)
  | Chargeback (client_id : ClientId) (txn_id : TxnId)
deriving DecidableEq

namespace ReferentialTransaction

/-- `ReferentialTransaction::client_id`. -/
def client_id : ReferentialTransaction → ClientId
  | .Dispute c _ => c
  | .Resolve c _ => c
  | .Chargeback c _ => c

/-- `ReferentialTransaction::txn_id`. -/
def txn_id : ReferentialTransaction → TxnId
  | .Dispute _ t => t
  | .Resolve _ t => t
  | .Chargeback _ t => t

end ReferentialTransaction

/-- `Transaction` from `src/transactions.rs`: the tagged union of the two
families. -/
inductive Transaction where
  | Basic (txn : BasicTransaction)
  | Referential (txn : ReferentialTransaction)
deriving DecidableEq

namespace Transaction

/-- `Transaction::new_dep`. -/
def new_dep (c : ClientId) (t : TxnId) (a : Currency) : Transaction :=
  .Basic (BasicTransaction.new_dep c t a)

/-- `Transaction::new_wit`. -/
def new_wit (c : ClientId) (t : TxnId) (a : Currency) : Transaction :=
  .Basic (BasicTransaction.new_wit c t a)

/-- `Transaction::new_dis`. -/
def new_dis (c : ClientId) (t : TxnId) : Transaction :=
  .Referential (.Dispute c t)

/-- `Transaction::new_res`. -/
def new_res (c : ClientId) (t : TxnId) : Transaction :=
  .Referential (.Resolve c t)

/-- `Transaction::new_cha`. -/
def new_cha (c : ClientId) (t : TxnId) : Transaction :=
  .Referential (.Chargeback c t)

/-- `Transaction::client_id`. -/
def client_id : Transaction → ClientId
  | .Basic t => t.client_id
  | .Referential t => t.client_id

/-- `Transaction::txn_id`. -/
def txn_id : Transaction → TxnId
  | .Basic t => t.txn_id
  | .Referential t => t.txn_id

/-- `Transaction::amount`. -/
def amount : Transaction → Option Currency
  | .Basic t => some t.amount
  | .Referential _ => none

/-- `Transaction::disputed`. -/
def disputed : Transaction → Option Bool
  | .Basic t => some t.disputed
  | .Referential _ => none

/-- `Transaction::is_basic`. -/
def is_basic : Transaction → Bool
  | .Basic _ => true
  | .Referential _ => false

end Transaction

/-! ## The container embeddings

`txns : HashMap<TxnId, BasicTransaction>` becomes an association list with
in-place replacement on insert; `clients : HashMap<ClientId, BTreeSet<TxnId>>`
likewise, its values strictly sorted lists; `locked_clients : HashSet<ClientId>`
a duplicate-free list. -/

abbrev TxnStore := List (TxnId × BasicTransaction)

/-- `HashMap::get` on the transaction store. -/
def storeGet : TxnStore → TxnId → Option BasicTransaction
  | [], _ => none
  | (k, v) :: rest, t => if k = t then some v else storeGet rest t

/-- `HashMap::contains_key` on the transaction store. -/
def storeContains (s : TxnStore) (t : TxnId) : Bool :=
  (storeGet s t).isSome

/-- `HashMap::insert` on the transaction store: replaces the value of an
existing key, otherwise appends the new binding. -/
def storeInsert : TxnStore → TxnId → BasicTransaction → TxnStore
  | [], t, v => [(t, v)]
  | (k, w) :: rest, t, v =>
      if k = t then (t, v) :: rest else (k, w) :: storeInsert rest t v

/-- `HashMap::remove` on the transaction store (keys are unique in a
`HashMap`, so removing the first matching binding is removal of the key). -/
def storeRemove : TxnStore → TxnId → TxnStore
  | [], _ => []
  | (k, w) :: rest, t => if k = t then rest else (k, w) :: storeRemove rest t

/-- `HashMap::get_mut` followed by `BasicTransaction::set_disputed`: update
the disputed flag of the binding with the given key, in place. -/
def storeSetDisputed : TxnStore → TxnId → Bool → TxnStore
  | [], _, _ => []
  | (k, w) :: rest, t, b =>
      if k = t then (k, w.set_disputed b) :: rest
      else (k, w) :: storeSetDisputed rest t b

/-- The disputed flag of the stored transaction with the given id
(`self.txns.get(&txn_id).unwrap().disputed()` guarded by `contains_key`). -/
def disputedAt (s : TxnStore) (t : TxnId) : Bool :=
  ((storeGet s t).map BasicTransaction.disputed).getD false

/-- `BTreeSet::insert`: sorted insertion, no duplicates. -/
def btreeInsert : List TxnId → TxnId → List TxnId
  | [], x => [x]
  | y :: ys, x =>
      if x < y then x :: y :: ys
      else if x = y then y :: ys
      else y :: btreeInsert ys x

/-- `BTreeSet::remove`. -/
def btreeRemove (s : List TxnId) (x : TxnId) : List TxnId :=
  s.filter (fun y => y ≠ x)

abbrev ClientsMap := List (ClientId × List TxnId)

/-- `HashMap::get` on the clients map. -/
def clientsGet : ClientsMap → ClientId → Option (List TxnId)
  | [], _ => none
  | (k, v) :: rest, c => if k = c then some v else clientsGet rest c

/-- `HashMap::contains_key` on the clients map. -/
def clientsContains (m : ClientsMap) (c : ClientId) : Bool :=
  (clientsGet m c).isSome

/-- `HashMap::insert` on the clients map: replaces the value of an existing
key, otherwise appends the new binding. -/
def clientsSet : ClientsMap → ClientId → List TxnId → ClientsMap
  | [], c, v => [(c, v)]
  | (k, w) :: rest, c, v =>
      if k = c then (c, v) :: rest else (k, w) :: clientsSet rest c v

/-- `HashMap::get_mut` followed by an in-place mutation of the value. -/
def clientsModify : ClientsMap → ClientId → (List TxnId → List TxnId) → ClientsMap
  | [], _, _ => []
  | (k, w) :: rest, c, f =>
      if k = c then (k, f w) :: rest
      else (k, w) :: clientsModify rest c f

abbrev LockedSet := List ClientId

/-- `HashSet::contains` on the locked-clients set. -/
def lockedContains (s : LockedSet) (c : ClientId) : Bool :=
  s.contains c

/-- `HashSet::insert` on the locked-clients set: adds the element when
absent. -/
def lockedInsert (s : LockedSet) (c : ClientId) : LockedSet :=
  if s.contains c then s else s ++ [c]

/-! ## The ledger (`src/ledger.rs`) -/

/-- `Ledger` from `src/ledger.rs`. -/
structure Ledger where
  txns : TxnStore
  clients : ClientsMap
  locked_clients : LockedSet
deriving DecidableEq

/-- `AccountSummary` from `src/ledger.rs`. -/
structure AccountSummary where
  client : ClientId
  available : Currency
  held : Currency
  total : Currency
  locked : Bool
deriving DecidableEq

namespace Ledger

/-- `Ledger::new`. -/
def new : Ledger := ⟨[], [], []⟩

/-- `Ledger::add_simple_transaction`: admit a deposit/withdrawal unless the
client is locked, creating the client's (empty) transaction set on first
contact, then inserting the id into the client's set and the transaction
into the global store. -/
def add_simple_transaction (l : Ledger) (txn : BasicTransaction) : Ledger :=
  if lockedContains l.locked_clients txn.client_id then l
  else
    let clients1 :=
      if clientsContains l.clients txn.client_id then l.clients
      else clientsSet l.clients txn.client_id []
    match clientsGet clients1 txn.client_id with
    | some transaction_ids =>
        { txns := storeInsert l.txns txn.txn_id txn,
          clients := clientsSet clients1 txn.client_id (btreeInsert transaction_ids txn.txn_id),
          locked_clients := l.locked_clients }
    | none => { l with clients := clients1 }

/-- `Ledger::add_transaction`: the single state-transition entry point. -/
def add_transaction (l : Ledger) (txn : Transaction) : Ledger :=
  match txn with
  | .Basic inner_txn => l.add_simple_transaction inner_txn
  | .Referential (.Dispute _ t) =>
      if storeContains l.txns t then { l with txns := storeSetDisputed l.txns t true }
      else l
  | .Referential (.Resolve _ t) =>
      if storeContains l.txns t then { l with txns := storeSetDisputed l.txns t false }
      else l
  | .Referential (.Chargeback c t) =>
      if storeContains l.txns t && disputedAt l.txns t && clientsContains l.clients c then
        { txns := storeRemove l.txns t,
          clients := clientsModify l.clients c (fun s => btreeRemove s t),
          locked_clients := lockedInsert l.locked_clients c }
      else l

/-- One step of the summary fold in
`Ledger::calculate_client_account_summary`: the accumulator is the pair
`(available, held)`. -/
def summaryStep (txns : TxnStore) (acc : Currency × Currency) (t : TxnId) : Currency × Currency :=
  match storeGet txns t with
  | some (.Deposit _ _ a false) => (acc.1 + a, acc.2)
  | some (.Withdrawal _ _ a false) => if a ≤ acc.1 then (acc.1 - a, acc.2) else acc
  | some (.Deposit _ _ a true) => (acc.1, acc.2 + a)
  | some (.Withdrawal _ _ a true) => if a ≤ acc.1 then (acc.1 - a, acc.2 + a) else acc
  | none => acc

/-- `Ledger::calculate_client_account_summary`: fold the client's stored
transaction ids over the stored value transactions. -/
def calculate_client_account_summary (l : Ledger) (c : ClientId) : Option AccountSummary :=
  match clientsGet l.clients c with
  | some txn_ids =>
      let acc := txn_ids.foldl (summaryStep l.txns) (0, 0)
      some { client := c, available := acc.1, held := acc.2,
             total := acc.1 + acc.2,
             locked := lockedContains l.locked_clients c }
  | none => none

/-- `Ledger::calculate_all_account_summaries`: iterate over the clients map
and keep every summary that projects. -/
def calculate_all_account_summaries (l : Ledger) : List AccountSummary :=
  (l.clients.map Prod.fst).filterMap l.calculate_client_account_summary

/-- The main-loop fold of `src/main.rs`: apply a list of transactions, in
order, to the empty ledger. -/
def applyAll (txs : List Transaction) : Ledger :=
  txs.foldl add_transaction Ledger.new

end Ledger

/-! ## Row parsing (`TryFrom<StringRecord> for Transaction`) -/

/-- The value of a non-empty all-ASCII-digit character list, `none`
otherwise (the digit-accumulation loop shared by the Rust integer
parsers). -/
def parseDigits (cs : List Char) : Option Nat :=
  if cs = [] then none
  else if cs.all Char.isDigit then
    some (cs.foldl (fun acc c => acc * 10 + (c.toNat - 48)) 0)
  else none

/-- Models Rust `str::parse::<u16>` / `::<u32>` (core `from_str_radix`,
base 10): an optional leading `+`, then one or more ASCII digits, and the
value must be within the type's range; a leading `-` is rejected outright
for unsigned types. -/
def parseUnsigned (bound : Nat) (s : String) : Option Nat :=
  let digits := match s.data with
    | '+' :: rest => rest
    | cs => cs
  match parseDigits digits with
  | some v => if v < bound then some v else none
  | none => none

/-- `str::parse::<ClientId>` with `ClientId = u16`. -/
def parseClientId (s : String) : Option ClientId := parseUnsigned (2 ^ 16) s

/-- `str::parse::<TxnId>` with `TxnId = u32`. -/
def parseTxnId (s : String) : Option TxnId := parseUnsigned (2 ^ 32) s

/-- A signed decimal digit string: optional `+`/`-` sign, then one or more
digits (`num::BigInt::from_str`, also covering the `i64` exponent parse,
whose range bound never matters for the rows this program accepts). -/
def parseSignedInt (cs : List Char) : Option Int :=
  match cs with
  | '+' :: rest => (parseDigits rest).map (fun n => (n : Int))
  | '-' :: rest => (parseDigits rest).map (fun n => -(n : Int))
  | _ => (parseDigits cs).map (fun n => (n : Int))

/-- Modelled from the external `bigdecimal` crate (a dependency whose
source is not part of this repository): `BigDecimal::from_str` splits the
input at the first `e`/`E` into base and exponent, parses the exponent as
a signed integer, deletes the single decimal point from the base
(recording the count of fractional digits as the scale) and parses the
remaining signed digit string; the value is `digits * 10 ^ (exp - scale)`.
The empty string (in particular an absent field) fails. -/
def parseCurrency (s : String) : Option Currency :=
  let base := s.data.takeWhile (fun c => !(c == 'e' || c == 'E'))
  let rest := s.data.dropWhile (fun c => !(c == 'e' || c == 'E'))
  let expPart : Option Int :=
    match rest with
    | [] => some 0
    | _ :: expChars => parseSignedInt expChars
  match expPart with
  | none => none
  | some e =>
      let intPart := base.takeWhile (fun c => !(c == '.'))
      let dotRest := base.dropWhile (fun c => !(c == '.'))
      let fracPart := dotRest.drop 1
      match parseSignedInt (intPart ++ fracPart) with
      | none => none
      | some m => some ((m : Currency) * (10 : Currency) ^ (e - (fracPart.length : Int)))

/-- The amount field of a row: `string_record.get(3)` fed to
`Currency::from_str` (an absent field and a failed parse both yield the
`Err` the kind dispatch matches on, embedded as `none`). -/
def amountOf (r : List String) : Option Currency :=
  match r.get? 3 with
  | some a => parseCurrency a
  | none => none

/-- `TryFrom<StringRecord> for Transaction` (`src/transactions.rs`): rows
with fewer than 3 fields are rejected; field 1 must parse (after trimming)
as a u16 client id, field 2 as a u32 txn id; the trimmed kind label is
then matched together with the amount parse result, value kinds requiring
a parsed amount and reference kinds requiring a missing/unparseable
amount. -/
def Transaction.try_from (r : List String) : Option Transaction :=
  if r.length < 3 then none
  else
    match r.get? 1 with
    | none => none
    | some cs =>
        match parseClientId cs.trim with
        | none => none
        | some cid =>
            match r.get? 2 with
            | none => none
            | some ts =>
                match parseTxnId ts.trim with
                | none => none
                | some tid =>
                    match r.get? 0 with
                    | none => none
                    | some ks =>
                        match ks.trim, amountOf r with
                        | "deposit", some a => some (Transaction.new_dep cid tid a)
                        | "withdrawal", some a => some (Transaction.new_wit cid tid a)
                        | "dispute", none => some (Transaction.new_dis cid tid)
                        | "resolve", none => some (Transaction.new_res cid tid)
                        | "chargeback", none => some (Transaction.new_cha cid tid)
                        | _, _ => none

/-! ## Container lemmas -/

theorem storeGet_storeInsert (s : TxnStore) (t : TxnId) (v : BasicTransaction) (t' : TxnId) :
    storeGet (storeInsert s t v) t' = if t = t' then some v else storeGet s t' := by
  induction s with
  | nil => simp [storeInsert, storeGet]
  | cons p rest ih =>
      obtain ⟨k, w⟩ := p
      by_cases hk : k = t
      · subst hk
        by_cases ht' : k = t' <;> simp [storeInsert, storeGet, ht']
      · by_cases ht' : k = t'
        · subst ht'
          have : ¬ t = k := fun h => hk h.symm
          simp [storeInsert, storeGet, hk, this]
        · simp [storeInsert, storeGet, hk, ht', ih]

theorem storeRemove_length {s : TxnStore} {t : TxnId} (h : storeContains s t = true) :
    (storeRemove s t).length < s.length := by
  induction s with
  | nil => simp [storeContains, storeGet] at h
  | cons p rest ih =>
      obtain ⟨k, w⟩ := p
      by_cases hk : k = t
      · simp [storeRemove, hk]
      · simp [storeContains, storeGet, hk] at h
        have := ih h
        simp [storeRemove, hk]
        omega

theorem storeGet_storeSetDisputed (s : TxnStore) (t : TxnId) (b : Bool) (t' : TxnId) :
    storeGet (storeSetDisputed s t b) t'
      = if t' = t then (storeGet s t').map (fun v => v.set_disputed b) else storeGet s t' := by
  induction s with
  | nil => simp [storeSetDisputed, storeGet]
  | cons p rest ih =>
      obtain ⟨k, w⟩ := p
      by_cases hk : k = t
      · by_cases ht' : k = t'
        · simp [storeSetDisputed, storeGet, hk, ht', hk ▸ ht'.symm]
        · have h1 : ¬ t' = t := fun h => ht' (hk.trans h.symm)
          have h2 : ¬ t = t' := fun h => ht' (hk.trans h)
          simp [storeSetDisputed, storeGet, hk, ht', h1, h2]
      · by_cases ht' : k = t'
        · have h1 : ¬ t' = t := fun h => hk (ht'.trans h)
          simp [storeSetDisputed, storeGet, hk, ht', h1]
        · simp [storeSetDisputed, storeGet, hk, ht', ih]

theorem mem_of_storeGet {s : TxnStore} {t : TxnId} {v : BasicTransaction}
    (h : storeGet s t = some v) : (t, v) ∈ s := by
  induction s with
  | nil => simp [storeGet] at h
  | cons p rest ih =>
      obtain ⟨k, w⟩ := p
      by_cases hk : k = t
      · subst hk
        simp [storeGet] at h
        simp [h]
      · simp [storeGet, hk] at h
        exact List.mem_cons_of_mem _ (ih h)

theorem clientsGet_clientsSet (m : ClientsMap) (c : ClientId) (v : List TxnId) (c' : ClientId) :
    clientsGet (clientsSet m c v) c' = if c = c' then some v else clientsGet m c' := by
  induction m with
  | nil => simp [clientsSet, clientsGet]
  | cons p rest ih =>
      obtain ⟨k, w⟩ := p
      by_cases hk : k = c
      · subst hk
        by_cases hc' : k = c' <;> simp [clientsSet, clientsGet, hc']
      · by_cases hc' : k = c'
        · subst hc'
          have : ¬ c = k := fun h => hk h.symm
          simp [clientsSet, clientsGet, hk, this]
        · simp [clientsSet, clientsGet, hk, hc', ih]

theorem clientsGet_clientsModify (m : ClientsMap) (c : ClientId) (f : List TxnId → List TxnId)
    (c' : ClientId) :
    clientsGet (clientsModify m c f) c'
      = if c' = c then (clientsGet m c').map f else clientsGet m c' := by
  induction m with
  | nil => simp [clientsModify, clientsGet]
  | cons p rest ih =>
      obtain ⟨k, w⟩ := p
      by_cases hk : k = c
      · by_cases hc' : k = c'
        · simp [clientsModify, clientsGet, hk, hc', hk ▸ hc'.symm]
        · have h1 : ¬ c' = c := fun h => hc' (hk.trans h.symm)
          have h2 : ¬ c = c' := fun h => hc' (hk.trans h)
          simp [clientsModify, clientsGet, hk, hc', h1, h2]
      · by_cases hc' : k = c'
        · have h1 : ¬ c' = c := fun h => hk (hc'.trans h)
          simp [clientsModify, clientsGet, hk, hc', h1]
        · simp [clientsModify, clientsGet, hk, hc', ih]

theorem mem_keys_of_clientsGet {m : ClientsMap} {c : ClientId} {v : List TxnId}
    (h : clientsGet m c = some v) : c ∈ m.map Prod.fst := by
  induction m with
  | nil => simp [clientsGet] at h
  | cons p rest ih =>
      obtain ⟨k, w⟩ := p
      by_cases hk : k = c
      · simp [hk]
      · simp [clientsGet, hk] at h
        simp [ih h]

theorem lockedContains_lockedInsert_self (s : LockedSet) (c : ClientId) :
    lockedContains (lockedInsert s c) c = true := by
  simp only [lockedContains, lockedInsert]
  by_cases h : c ∈ s
  · simp [h]
  · simp [h]


/-! ## Claims -/

/-- C7: for every ledger state in which client C is in the locked-clients
set, applying any deposit or withdrawal with client id C leaves the entire
ledger state unchanged, and therefore every subsequent summary (for C and
all other clients) is identical to what it would be without the
transaction. -/
theorem C7_locked_client_value_noop (l : Ledger) (txn : BasicTransaction)
    (h : lockedContains l.locked_clients txn.client_id = true) :
    l.add_transaction (.Basic txn) = l
    ∧ ∀ c, (l.add_transaction (.Basic txn)).calculate_client_account_summary c
        = l.calculate_client_account_summary c := by
  have h1 : l.add_transaction (.Basic txn) = l := by
    simp [Ledger.add_transaction, Ledger.add_simple_transaction, h]
  exact ⟨h1, fun c => by rw [h1]⟩

/-- Witness for C7: a ledger whose only state is that client 7 is locked
absorbs a deposit by client 7 without any change. -/
theorem C7_locked_client_value_noop_witness :
    lockedContains (Ledger.mk [] [] [7]).locked_clients (BasicTransaction.new_dep 7 1 5).client_id = true
    ∧ ((Ledger.mk [] [] [7]).add_transaction (.Basic (BasicTransaction.new_dep 7 1 5)) = Ledger.mk [] [] [7]
      ∧ ∀ c, ((Ledger.mk [] [] [7]).add_transaction (.Basic (BasicTransaction.new_dep 7 1 5))).calculate_client_account_summary c
          = (Ledger.mk [] [] [7]).calculate_client_account_summary c) :=
  ⟨rfl, C7_locked_client_value_noop _ _ rfl⟩

/-- C1 counterexample: the claim says a duplicate txn id leaves the stored
transaction unchanged (first occurrence wins).  In the code
`HashMap::insert` overwrites unconditionally: after a deposit of amount 1
with txn id 1, re-submitting txn id 1 with amount 2 replaces the stored
transaction. -/
theorem C1_counterexample :
    storeGet (Ledger.applyAll [Transaction.new_dep 0 1 1]).txns 1
      = some (BasicTransaction.Deposit 0 1 1 false)
    ∧ storeGet ((Ledger.applyAll [Transaction.new_dep 0 1 1]).add_transaction
        (Transaction.new_dep 0 1 2)).txns 1
      = some (BasicTransaction.Deposit 0 1 2 false)
    ∧ BasicTransaction.Deposit (0 : ClientId) 1 (2 : Currency) false
        ≠ BasicTransaction.Deposit (0 : ClientId) 1 (1 : Currency) false := by
  refine ⟨?_, ?_, ?_⟩ <;>
    norm_num [Ledger.applyAll, Ledger.new, Ledger.add_transaction,
      Ledger.add_simple_transaction, Transaction.new_dep, BasicTransaction.new_dep,
      BasicTransaction.client_id, BasicTransaction.txn_id, lockedContains,
      clientsContains, clientsGet, clientsSet, btreeInsert, storeInsert, storeGet]

/-- C1 (amended): applying a deposit or withdrawal whose txn id is already
present in the global transaction store OVERWRITES the stored value
transaction with the new one (last occurrence wins), provided the
submitting client is not locked. -/
theorem C1_amended_duplicate_overwrites (l : Ledger) (txn : BasicTransaction)
    (hdup : storeContains l.txns txn.txn_id = true)
    (hnl : lockedContains l.locked_clients txn.client_id = false) :
    storeGet (l.add_transaction (.Basic txn)).txns txn.txn_id = some txn := by
  by_cases hc : clientsContains l.clients txn.client_id = true
  · obtain ⟨ids, hids⟩ : ∃ ids, clientsGet l.clients txn.client_id = some ids := by
      cases hh : clientsGet l.clients txn.client_id
      · simp [clientsContains, hh] at hc
      · exact ⟨_, rfl⟩
    simp [Ledger.add_transaction, Ledger.add_simple_transaction, hnl, hc, hids,
      storeGet_storeInsert]
  · rw [Bool.not_eq_true] at hc
    simp [Ledger.add_transaction, Ledger.add_simple_transaction, hnl, hc,
      clientsGet_clientsSet, storeGet_storeInsert]

/-- Witness for C1 (amended): a ledger already storing txn id 1 (amount 1)
receives a second deposit with txn id 1 and amount 2; the stored value is
now the amount-2 deposit. -/
theorem C1_amended_duplicate_overwrites_witness :
    storeContains (Ledger.mk [(1, BasicTransaction.Deposit 0 1 1 false)] [(0, [1])] []).txns
        (BasicTransaction.new_dep 0 1 2).txn_id = true
    ∧ lockedContains (Ledger.mk [(1, BasicTransaction.Deposit 0 1 1 false)] [(0, [1])] []).locked_clients
        (BasicTransaction.new_dep 0 1 2).client_id = false
    ∧ storeGet ((Ledger.mk [(1, BasicTransaction.Deposit 0 1 1 false)] [(0, [1])] []).add_transaction
          (.Basic (BasicTransaction.new_dep 0 1 2))).txns (BasicTransaction.new_dep 0 1 2).txn_id
        = some (BasicTransaction.new_dep 0 1 2) :=
  ⟨rfl, rfl, C1_amended_duplicate_overwrites _ _ rfl rfl⟩

/-- C4: a chargeback changes the ledger iff its txn id is in the store,
that transaction is disputed, and the named client has account state; when
effective it removes the transaction from the store, removes the id from
that client's transaction set and locks the client; when any precondition
fails the whole ledger is unchanged (no partial effects). -/
theorem C4_chargeback_guard (l : Ledger) (c : ClientId) (t : TxnId) :
    (l.add_transaction (.Referential (.Chargeback c t)) ≠ l
        ↔ storeContains l.txns t = true ∧ disputedAt l.txns t = true
            ∧ clientsContains l.clients c = true)
    ∧ (storeContains l.txns t = true → disputedAt l.txns t = true →
        clientsContains l.clients c = true →
        l.add_transaction (.Referential (.Chargeback c t))
          = ⟨storeRemove l.txns t, clientsModify l.clients c (fun s => btreeRemove s t),
             lockedInsert l.locked_clients c⟩)
    ∧ (¬ (storeContains l.txns t = true ∧ disputedAt l.txns t = true
            ∧ clientsContains l.clients c = true) →
        l.add_transaction (.Referential (.Chargeback c t)) = l) := by
  have hcond : ((storeContains l.txns t && disputedAt l.txns t && clientsContains l.clients c) = true)
      ↔ (storeContains l.txns t = true ∧ disputedAt l.txns t = true
          ∧ clientsContains l.clients c = true) := by
    simp [Bool.and_eq_true, and_assoc]
  by_cases hP : storeContains l.txns t = true ∧ disputedAt l.txns t = true
      ∧ clientsContains l.clients c = true
  · have heq : l.add_transaction (.Referential (.Chargeback c t))
        = ⟨storeRemove l.txns t, clientsModify l.clients c (fun s => btreeRemove s t),
           lockedInsert l.locked_clients c⟩ := by
      simp only [Ledger.add_transaction]
      rw [if_pos (hcond.mpr hP)]
    have hne : l.add_transaction (.Referential (.Chargeback c t)) ≠ l := by
      rw [heq]
      intro hcontra
      have hlen : (storeRemove l.txns t).length < l.txns.length := storeRemove_length hP.1
      have hsame : storeRemove l.txns t = l.txns := congrArg Ledger.txns hcontra
      rw [hsame] at hlen
      exact lt_irrefl _ hlen
    exact ⟨⟨fun _ => hP, fun _ => hne⟩, fun _ _ _ => heq, fun hn => absurd hP hn⟩
  · have heq : l.add_transaction (.Referential (.Chargeback c t)) = l := by
      simp only [Ledger.add_transaction]
      rw [if_neg (fun h => hP (hcond.mp h))]
    exact ⟨⟨fun hne => absurd heq hne, fun hp => absurd hp hP⟩,
      fun h1 h2 h3 => absurd ⟨h1, h2, h3⟩ hP, fun _ => heq⟩

/-- C6: dispute and resolve locate their target purely by global txn id:
the client id they carry is never used (any two client ids give identical
results), an unknown txn id leaves the ledger unchanged, and a known txn id
has its disputed flag set (dispute) or cleared (resolve) regardless of the
client named. -/
theorem C6_dispute_resolve_by_global_id (l : Ledger) (t : TxnId) (c c' : ClientId) :
    (l.add_transaction (.Referential (.Dispute c t)) = l.add_transaction (.Referential (.Dispute c' t))
      ∧ l.add_transaction (.Referential (.Resolve c t)) = l.add_transaction (.Referential (.Resolve c' t)))
    ∧ (storeContains l.txns t = false →
        l.add_transaction (.Referential (.Dispute c t)) = l
        ∧ l.add_transaction (.Referential (.Resolve c t)) = l)
    ∧ (∀ v, storeGet l.txns t = some v →
        storeGet (l.add_transaction (.Referential (.Dispute c t))).txns t = some (v.set_disputed true)
        ∧ storeGet (l.add_transaction (.Referential (.Resolve c t))).txns t = some (v.set_disputed false)) := by
  refine ⟨⟨rfl, rfl⟩, fun h => ?_, fun v hv => ?_⟩
  · constructor <;> simp [Ledger.add_transaction, h]
  · have hcont : storeContains l.txns t = true := by simp [storeContains, hv]
    constructor <;>
      simp [Ledger.add_transaction, hcont, storeGet_storeSetDisputed, hv]

/-- C3: a stored withdrawal whose amount exceeds the running available
balance at its position in the summary fold (whether disputed or not)
contributes nothing: the client's summary equals the summary of the same
history with that withdrawal dropped from the client's transaction set. -/
theorem C3_overdraw_withdrawal_no_effect (l : Ledger) (cid : ClientId)
    (pre post : List TxnId) (tid : TxnId) (c : ClientId) (t : TxnId)
    (a : Currency) (d : Bool)
    (hids : clientsGet l.clients cid = some (pre ++ tid :: post))
    (hget : storeGet l.txns tid = some (.Withdrawal c t a d))
    (hgt : (pre.foldl (Ledger.summaryStep l.txns) (0, 0)).1 < a) :
    l.calculate_client_account_summary cid
      = Ledger.calculate_client_account_summary
          { l with clients := clientsSet l.clients cid (pre ++ post) } cid := by
  have hle : ¬ a ≤ (pre.foldl (Ledger.summaryStep l.txns) (0, 0)).1 := not_le.mpr hgt
  have hstep : ∀ acc : Currency × Currency, ¬ a ≤ acc.1 →
      Ledger.summaryStep l.txns acc tid = acc := by
    intro acc hacc
    cases d <;> simp [Ledger.summaryStep, hget, hacc]
  have hfold : (pre ++ tid :: post).foldl (Ledger.summaryStep l.txns) (0, 0)
      = (pre ++ post).foldl (Ledger.summaryStep l.txns) (0, 0) := by
    rw [List.foldl_append, List.foldl_append, List.foldl_cons, hstep _ hle]
  simp [Ledger.calculate_client_account_summary, hids, clientsGet_clientsSet, hfold,
    -Prod.mk_zero_zero]

/-- Witness for C3: a 5-deposit followed by a 7-withdrawal; the withdrawal
exceeds the running balance 5 and the summary equals the one without it. -/
theorem C3_overdraw_withdrawal_no_effect_witness :
    clientsGet (Ledger.mk [(1, BasicTransaction.Deposit 0 1 5 false), (2, BasicTransaction.Withdrawal 0 2 7 false)] [(0, [1, 2])] []).clients 0
        = some ([1] ++ 2 :: [])
    ∧ storeGet (Ledger.mk [(1, BasicTransaction.Deposit 0 1 5 false), (2, BasicTransaction.Withdrawal 0 2 7 false)] [(0, [1, 2])] []).txns 2
        = some (.Withdrawal 0 2 7 false)
    ∧ (([1] : List TxnId).foldl
        (Ledger.summaryStep (Ledger.mk [(1, BasicTransaction.Deposit 0 1 5 false), (2, BasicTransaction.Withdrawal 0 2 7 false)] [(0, [1, 2])] []).txns) (0, 0)).1 < 7
    ∧ (Ledger.mk [(1, BasicTransaction.Deposit 0 1 5 false), (2, BasicTransaction.Withdrawal 0 2 7 false)] [(0, [1, 2])] []).calculate_client_account_summary 0
        = Ledger.calculate_client_account_summary
            { Ledger.mk [(1, BasicTransaction.Deposit 0 1 5 false), (2, BasicTransaction.Withdrawal 0 2 7 false)] [(0, [1, 2])] [] with
              clients := clientsSet (Ledger.mk [(1, BasicTransaction.Deposit 0 1 5 false), (2, BasicTransaction.Withdrawal 0 2 7 false)] [(0, [1, 2])] []).clients 0 ([1] ++ []) } 0 :=
  ⟨rfl, rfl, by norm_num [Ledger.summaryStep, storeGet],
    C3_overdraw_withdrawal_no_effect _ 0 [1] [] 2 0 2 7 false rfl rfl
      (by norm_num [Ledger.summaryStep, storeGet])⟩

/-- C9: after an effective chargeback that removes a client's only
transaction, the client's account state still exists: the summary projects
(is not absent) with zero available, held and total, locked, and the client
still appears in the all-summaries listing. -/
theorem C9_chargeback_keeps_account (l : Ledger) (cid : ClientId) (tid : TxnId)
    (hids : clientsGet l.clients cid = some [tid])
    (hdisp : disputedAt l.txns tid = true) :
    ((l.add_transaction (.Referential (.Chargeback cid tid))).calculate_client_account_summary cid
        = some ⟨cid, 0, 0, 0, true⟩)
    ∧ (⟨cid, 0, 0, 0, true⟩ : AccountSummary)
        ∈ (l.add_transaction (.Referential (.Chargeback cid tid))).calculate_all_account_summaries := by
  have hcont : storeContains l.txns tid = true := by
    cases hh : storeGet l.txns tid
    · simp [disputedAt, hh] at hdisp
    · simp [storeContains, hh]
  have hccont : clientsContains l.clients cid = true := by simp [clientsContains, hids]
  have hP : (storeContains l.txns tid && disputedAt l.txns tid && clientsContains l.clients cid) = true := by
    rw [hcont, hdisp, hccont]; rfl
  have heq : l.add_transaction (.Referential (.Chargeback cid tid))
      = ⟨storeRemove l.txns tid, clientsModify l.clients cid (fun s => btreeRemove s tid),
         lockedInsert l.locked_clients cid⟩ := by
    simp only [Ledger.add_transaction]
    rw [if_pos hP]
  have hids' : clientsGet (clientsModify l.clients cid (fun s => btreeRemove s tid)) cid
      = some [] := by
    simp [clientsGet_clientsModify, hids, btreeRemove]
  have hsum : (l.add_transaction (.Referential (.Chargeback cid tid))).calculate_client_account_summary cid
      = some ⟨cid, 0, 0, 0, true⟩ := by
    rw [heq]
    simp [Ledger.calculate_client_account_summary, hids', lockedContains_lockedInsert_self]
  refine ⟨hsum, ?_⟩
  have hkey : cid ∈ (l.add_transaction (.Referential (.Chargeback cid tid))).clients.map Prod.fst := by
    rw [heq]
    exact mem_keys_of_clientsGet hids'
  unfold Ledger.calculate_all_account_summaries
  exact List.mem_filterMap.mpr ⟨cid, hkey, hsum⟩

/-- Witness for C9: client 0's only transaction, the disputed deposit with
txn id 1, is charged back; the account remains with an all-zero, locked
summary that appears in the listing. -/
theorem C9_chargeback_keeps_account_witness :
    clientsGet (Ledger.mk [(1, BasicTransaction.Deposit 0 1 5 true)] [(0, [1])] []).clients 0 = some [1]
    ∧ disputedAt (Ledger.mk [(1, BasicTransaction.Deposit 0 1 5 true)] [(0, [1])] []).txns 1 = true
    ∧ (((Ledger.mk [(1, BasicTransaction.Deposit 0 1 5 true)] [(0, [1])] []).add_transaction
          (.Referential (.Chargeback 0 1))).calculate_client_account_summary 0
        = some ⟨0, 0, 0, 0, true⟩
      ∧ (⟨0, 0, 0, 0, true⟩ : AccountSummary)
          ∈ ((Ledger.mk [(1, BasicTransaction.Deposit 0 1 5 true)] [(0, [1])] []).add_transaction
              (.Referential (.Chargeback 0 1))).calculate_all_account_summaries) :=
  ⟨rfl, rfl, C9_chargeback_keeps_account _ 0 1 rfl rfl⟩

theorem storeSetDisputed_roundtrip {s : TxnStore} {t : TxnId} {v : BasicTransaction}
    (hget : storeGet s t = some v) (hv : v.disputed = false) :
    storeSetDisputed (storeSetDisputed s t true) t false = s := by
  induction s with
  | nil => simp [storeGet] at hget
  | cons p rest ih =>
      obtain ⟨k, w⟩ := p
      by_cases hk : k = t
      · have hw : w = v := by simpa [storeGet, hk] using hget
        subst hw
        simp only [storeSetDisputed, if_pos hk]
        cases w <;> simp_all [BasicTransaction.set_disputed, BasicTransaction.disputed]
      · have hget' : storeGet rest t = some v := by simpa [storeGet, hk] using hget
        simp [storeSetDisputed, hk, ih hget']

theorem foldl_summaryStep_setDisputed_not_mem (txns : TxnStore) (x : TxnId) (b : Bool)
    (ids : List TxnId) (hx : x ∉ ids) :
    ∀ acc, ids.foldl (Ledger.summaryStep (storeSetDisputed txns x b)) acc
      = ids.foldl (Ledger.summaryStep txns) acc := by
  induction ids with
  | nil => intro acc; rfl
  | cons y ys ih =>
      intro acc
      have hxy : ¬ y = x := fun h => hx (by simp [h])
      have hy : Ledger.summaryStep (storeSetDisputed txns x b) acc y
          = Ledger.summaryStep txns acc y := by
        simp only [Ledger.summaryStep, storeGet_storeSetDisputed, if_neg hxy]
      rw [List.foldl_cons, List.foldl_cons, hy,
        ih (fun h => hx (List.mem_cons_of_mem _ h))]

/-- C5 counterexample: the claim says disputing a stored undisputed deposit
of amount A moves exactly A from available to held with total unchanged.
After deposit(txn 1, 10) and withdrawal(txn 2, 10) the summary is all
zeros; disputing deposit 1 retroactively invalidates the withdrawal, so the
summary becomes held = total = 10: total changed and available did not drop
by A. -/
theorem C5_counterexample :
    (Ledger.applyAll [Transaction.new_dep 0 1 10, Transaction.new_wit 0 2 10]).calculate_client_account_summary 0
      = some ⟨0, 0, 0, 0, false⟩
    ∧ ((Ledger.applyAll [Transaction.new_dep 0 1 10, Transaction.new_wit 0 2 10]).add_transaction
        (Transaction.new_dis 0 1)).calculate_client_account_summary 0
      = some ⟨0, 0, 10, 10, false⟩
    ∧ (⟨0, 0, 10, 10, false⟩ : AccountSummary).total ≠ (⟨0, 0, 0, 0, false⟩ : AccountSummary).total := by
  refine ⟨?_, ?_, ?_⟩ <;>
    norm_num [Ledger.applyAll, Ledger.new, Ledger.add_transaction,
      Ledger.add_simple_transaction, Transaction.new_dep, Transaction.new_wit,
      Transaction.new_dis, BasicTransaction.new_dep, BasicTransaction.new_wit,
      BasicTransaction.client_id, BasicTransaction.txn_id, BasicTransaction.set_disputed,
      lockedContains, clientsContains, clientsGet, clientsSet, btreeInsert,
      storeInsert, storeGet, storeContains, storeSetDisputed,
      Ledger.summaryStep, Ledger.calculate_client_account_summary]

/-- C5 (amended): resolving immediately after disputing always restores the
ledger exactly; and the dispute of a stored undisputed deposit of amount A
moves exactly A from available to held with total and lock state unchanged
PROVIDED the deposit's txn id is the last of the client's transaction set
(in general the dispute can also invalidate later withdrawals of the same
client, which changes total, as the counterexample shows). -/
theorem C5_amended_dispute_resolve (l : Ledger) (cl cid c : ClientId) (tid t : TxnId)
    (A : Currency) (pre : List TxnId)
    (hget : storeGet l.txns tid = some (.Deposit c t A false)) :
    ((l.add_transaction (.Referential (.Dispute cl tid))).add_transaction
        (.Referential (.Resolve cl tid)) = l)
    ∧ (clientsGet l.clients cid = some (pre ++ [tid]) → tid ∉ pre →
        ∃ s s', l.calculate_client_account_summary cid = some s
          ∧ (l.add_transaction (.Referential (.Dispute cl tid))).calculate_client_account_summary cid
              = some s'
          ∧ s'.available = s.available - A ∧ s'.held = s.held + A
          ∧ s'.total = s.total ∧ s'.locked = s.locked) := by
  have hcont : storeContains l.txns tid = true := by simp [storeContains, hget]
  have hd1 : l.add_transaction (.Referential (.Dispute cl tid))
      = { l with txns := storeSetDisputed l.txns tid true } := by
    simp [Ledger.add_transaction, hcont]
  constructor
  · have hget1 : storeGet (storeSetDisputed l.txns tid true) tid
        = some ((BasicTransaction.Deposit c t A false).set_disputed true) := by
      simp [storeGet_storeSetDisputed, hget]
    have hcont1 : storeContains (storeSetDisputed l.txns tid true) tid = true := by
      simp [storeContains, hget1]
    rw [hd1]
    have h2 : ({ l with txns := storeSetDisputed l.txns tid true } : Ledger).add_transaction
        (.Referential (.Resolve cl tid))
        = { l with txns := storeSetDisputed (storeSetDisputed l.txns tid true) tid false } := by
      simp [Ledger.add_transaction, hcont1]
    rw [h2, storeSetDisputed_roundtrip hget rfl]
  · intro hids htid
    refine ⟨⟨cid, (pre.foldl (Ledger.summaryStep l.txns) (0, 0)).1 + A,
        (pre.foldl (Ledger.summaryStep l.txns) (0, 0)).2,
        ((pre.foldl (Ledger.summaryStep l.txns) (0, 0)).1 + A)
          + (pre.foldl (Ledger.summaryStep l.txns) (0, 0)).2,
        lockedContains l.locked_clients cid⟩,
      ⟨cid, (pre.foldl (Ledger.summaryStep l.txns) (0, 0)).1,
        (pre.foldl (Ledger.summaryStep l.txns) (0, 0)).2 + A,
        (pre.foldl (Ledger.summaryStep l.txns) (0, 0)).1
          + ((pre.foldl (Ledger.summaryStep l.txns) (0, 0)).2 + A),
        lockedContains l.locked_clients cid⟩, ?_, ?_, ?_, ?_, ?_, ?_⟩
    · simp [Ledger.calculate_client_account_summary, hids, List.foldl_append,
        Ledger.summaryStep, hget, -Prod.mk_zero_zero]
    · rw [hd1]
      simp [Ledger.calculate_client_account_summary, hids, List.foldl_append,
        foldl_summaryStep_setDisputed_not_mem l.txns tid true pre htid,
        Ledger.summaryStep, storeGet_storeSetDisputed, hget,
        BasicTransaction.set_disputed, -Prod.mk_zero_zero]
    · show _ = _ + A - A
      ring
    · rfl
    · show _ + (_ + A) = _ + A + _
      ring
    · rfl

/-- Witness for C5 (amended): a ledger holding only the undisputed deposit
(txn 1, amount 5) of client 0; the dispute (filed under the unrelated
client id 9) moves 5 from available to held, and resolve undoes it. -/
theorem C5_amended_dispute_resolve_witness :
    storeGet (Ledger.mk [(1, BasicTransaction.Deposit 0 1 5 false)] [(0, [1])] []).txns 1
      = some (.Deposit 0 1 5 false)
    ∧ ((((Ledger.mk [(1, BasicTransaction.Deposit 0 1 5 false)] [(0, [1])] []).add_transaction
          (.Referential (.Dispute 9 1))).add_transaction (.Referential (.Resolve 9 1))
        = Ledger.mk [(1, BasicTransaction.Deposit 0 1 5 false)] [(0, [1])] [])
      ∧ (clientsGet (Ledger.mk [(1, BasicTransaction.Deposit 0 1 5 false)] [(0, [1])] []).clients 0
            = some ([] ++ [1]) → (1 : TxnId) ∉ ([] : List TxnId) →
          ∃ s s', (Ledger.mk [(1, BasicTransaction.Deposit 0 1 5 false)] [(0, [1])] []).calculate_client_account_summary 0
              = some s
            ∧ ((Ledger.mk [(1, BasicTransaction.Deposit 0 1 5 false)] [(0, [1])] []).add_transaction
                (.Referential (.Dispute 9 1))).calculate_client_account_summary 0 = some s'
            ∧ s'.available = s.available - 5 ∧ s'.held = s.held + 5
            ∧ s'.total = s.total ∧ s'.locked = s.locked)) :=
  ⟨rfl, C5_amended_dispute_resolve _ 9 0 0 1 1 5 [] rfl⟩

theorem mem_btreeInsert {ids : List TxnId} {x b : TxnId} (h : b ∈ btreeInsert ids x) :
    b = x ∨ b ∈ ids := by
  induction ids with
  | nil => simpa [btreeInsert] using h
  | cons y ys ih =>
      by_cases h1 : x < y
      · simp only [btreeInsert, if_pos h1] at h
        rcases List.mem_cons.mp h with h | h
        · exact Or.inl h
        · exact Or.inr h
      · by_cases h2 : x = y
        · simp only [btreeInsert, if_neg h1, if_pos h2] at h
          exact Or.inr h
        · simp only [btreeInsert, if_neg h1, if_neg h2] at h
          rcases List.mem_cons.mp h with h | h
          · exact Or.inr (by simp [h])
          · rcases ih h with h | h
            · exact Or.inl h
            · exact Or.inr (List.mem_cons_of_mem _ h)

theorem btreeInsert_sorted {ids : List TxnId} (x : TxnId) (h : List.Sorted (· < ·) ids) :
    List.Sorted (· < ·) (btreeInsert ids x) := by
  induction ids with
  | nil => simp [btreeInsert]
  | cons y ys ih =>
      rw [List.sorted_cons] at h
      obtain ⟨hy, hys⟩ := h
      by_cases h1 : x < y
      · simp only [btreeInsert, if_pos h1]
        rw [List.sorted_cons]
        refine ⟨?_, List.sorted_cons.mpr ⟨hy, hys⟩⟩
        intro b hb
        rcases List.mem_cons.mp hb with hb | hb
        · exact hb ▸ h1
        · exact lt_trans h1 (hy b hb)
      · by_cases h2 : x = y
        · simp only [btreeInsert, if_neg h1, if_pos h2]
          exact List.sorted_cons.mpr ⟨hy, hys⟩
        · simp only [btreeInsert, if_neg h1, if_neg h2]
          have hyx : y < x := lt_of_le_of_ne (not_lt.mp h1) (fun hh => h2 hh.symm)
          rw [List.sorted_cons]
          refine ⟨?_, ih hys⟩
          intro b hb
          rcases mem_btreeInsert hb with hb | hb
          · exact hb ▸ hyx
          · exact hy b hb

theorem btreeRemove_sorted {ids : List TxnId} (x : TxnId) (h : List.Sorted (· < ·) ids) :
    List.Sorted (· < ·) (btreeRemove ids x) :=
  List.Pairwise.filter _ h

theorem add_transaction_keeps_sorted {l : Ledger} (txn : Transaction)
    (h : ∀ c ids, clientsGet l.clients c = some ids → List.Sorted (· < ·) ids) :
    ∀ c ids, clientsGet (l.add_transaction txn).clients c = some ids
      → List.Sorted (· < ·) ids := by
  cases txn with
  | Basic b =>
      intro c ids hids
      by_cases hlk : lockedContains l.locked_clients b.client_id = true
      · have : l.add_transaction (.Basic b) = l := by
          simp [Ledger.add_transaction, Ledger.add_simple_transaction, hlk]
        rw [this] at hids
        exact h _ _ hids
      · rw [Bool.not_eq_true] at hlk
        by_cases hc : clientsContains l.clients b.client_id = true
        · obtain ⟨ids0, hids0⟩ : ∃ ids0, clientsGet l.clients b.client_id = some ids0 := by
            cases hh : clientsGet l.clients b.client_id
            · simp [clientsContains, hh] at hc
            · exact ⟨_, rfl⟩
          have hres : (l.add_transaction (.Basic b)).clients
              = clientsSet l.clients b.client_id (btreeInsert ids0 b.txn_id) := by
            simp [Ledger.add_transaction, Ledger.add_simple_transaction, hlk, hc, hids0]
          rw [hres, clientsGet_clientsSet] at hids
          by_cases hcc : b.client_id = c
          · rw [if_pos hcc] at hids
            cases hids
            exact btreeInsert_sorted _ (h _ _ hids0)
          · rw [if_neg hcc] at hids
            exact h _ _ hids
        · rw [Bool.not_eq_true] at hc
          have hres : (l.add_transaction (.Basic b)).clients
              = clientsSet (clientsSet l.clients b.client_id []) b.client_id
                  (btreeInsert [] b.txn_id) := by
            simp [Ledger.add_transaction, Ledger.add_simple_transaction, hlk, hc,
              clientsGet_clientsSet]
          rw [hres, clientsGet_clientsSet] at hids
          by_cases hcc : b.client_id = c
          · rw [if_pos hcc] at hids
            cases hids
            simp [btreeInsert]
          · rw [if_neg hcc] at hids
            rw [clientsGet_clientsSet, if_neg hcc] at hids
            exact h _ _ hids
  | Referential r =>
      cases r with
      | Dispute cl t =>
          intro c ids hids
          have hcl : (l.add_transaction (.Referential (.Dispute cl t))).clients = l.clients := by
            by_cases hc : storeContains l.txns t = true <;> simp [Ledger.add_transaction, hc]
          rw [hcl] at hids
          exact h _ _ hids
      | Resolve cl t =>
          intro c ids hids
          have hcl : (l.add_transaction (.Referential (.Resolve cl t))).clients = l.clients := by
            by_cases hc : storeContains l.txns t = true <;> simp [Ledger.add_transaction, hc]
          rw [hcl] at hids
          exact h _ _ hids
      | Chargeback cl t =>
          intro c ids hids
          by_cases hP : (storeContains l.txns t && disputedAt l.txns t
              && clientsContains l.clients cl) = true
          · have hcl : (l.add_transaction (.Referential (.Chargeback cl t))).clients
                = clientsModify l.clients cl (fun s => btreeRemove s t) := by
              simp only [Ledger.add_transaction]
              rw [if_pos hP]
            rw [hcl, clientsGet_clientsModify] at hids
            by_cases hcc : c = cl
            · rw [if_pos hcc] at hids
              cases hg : clientsGet l.clients c with
              | none => rw [hg] at hids; simp at hids
              | some ids0 =>
                  rw [hg] at hids
                  have hids2 : btreeRemove ids0 t = ids := by simpa using hids
                  rw [← hids2]
                  exact btreeRemove_sorted _ (h _ _ hg)
            · rw [if_neg hcc] at hids
              exact h _ _ hids
          · have hcl : l.add_transaction (.Referential (.Chargeback cl t)) = l := by
              simp only [Ledger.add_transaction]
              rw [if_neg hP]
            rw [hcl] at hids
            exact h _ _ hids

/-- C2 counterexample: the claim says the summary folds the client's txn
ids in insertion order for every arrival order.  Submitting deposit(txn 2,
amount 1) then withdrawal(txn 1, amount 1) stores the id set as the
BTreeSet-ordered [1, 2] (not the insertion order [2, 1]); the summary is
computed as available 1 (the withdrawal precedes the deposit and is
dropped), while the fold in insertion order [2, 1] would give available
0. -/
theorem C2_counterexample :
    clientsGet (Ledger.applyAll [Transaction.new_dep 0 2 1, Transaction.new_wit 0 1 1]).clients 0
      = some [1, 2]
    ∧ (Ledger.applyAll [Transaction.new_dep 0 2 1, Transaction.new_wit 0 1 1]).calculate_client_account_summary 0
      = some ⟨0, 1, 0, 1, false⟩
    ∧ ([2, 1].foldl
        (Ledger.summaryStep (Ledger.applyAll [Transaction.new_dep 0 2 1, Transaction.new_wit 0 1 1]).txns)
        (0, 0)).1 = 0
    ∧ (1 : Currency) ≠ 0 := by
  refine ⟨?_, ?_, ?_, ?_⟩ <;>
    norm_num [Ledger.applyAll, Ledger.new, Ledger.add_transaction,
      Ledger.add_simple_transaction, Transaction.new_dep, Transaction.new_wit,
      BasicTransaction.new_dep, BasicTransaction.new_wit, BasicTransaction.client_id,
      BasicTransaction.txn_id, lockedContains, clientsContains, clientsGet, clientsSet,
      btreeInsert, storeInsert, storeGet, Ledger.summaryStep,
      Ledger.calculate_client_account_summary]

/-- C2 (amended): the summary folds over the client's transaction ids in
ascending txn-id order (the BTreeSet iteration order): for every arrival
order of transactions, each client's stored id list is strictly sorted by
txn id.  This coincides with insertion order only when a client's ids
first arrive in increasing order. -/
theorem C2_amended_fold_in_ascending_id_order (txs : List Transaction) (cid : ClientId)
    (ids : List TxnId)
    (hids : clientsGet (Ledger.applyAll txs).clients cid = some ids) :
    List.Sorted (· < ·) ids := by
  rw [Ledger.applyAll] at hids
  revert hids
  suffices hgen : ∀ l : Ledger,
      (∀ c ids1, clientsGet l.clients c = some ids1 → List.Sorted (· < ·) ids1) →
      ∀ c ids1, clientsGet (txs.foldl Ledger.add_transaction l).clients c = some ids1
        → List.Sorted (· < ·) ids1 by
    intro hids
    exact hgen Ledger.new (by intro c ids1 h1; simp [Ledger.new, clientsGet] at h1) cid ids hids
  induction txs with
  | nil => intro l hl; exact hl
  | cons tx rest ih =>
      intro l hl
      exact ih _ (add_transaction_keeps_sorted tx hl)

/-- Witness for C2 (amended): ids arriving as 2 then 1 are stored as the
sorted list [1, 2]. -/
theorem C2_amended_fold_in_ascending_id_order_witness :
    clientsGet (Ledger.applyAll [Transaction.new_dep 0 2 1, Transaction.new_wit 0 1 1]).clients 0
      = some [1, 2]
    ∧ List.Sorted (· < ·) ([1, 2] : List TxnId) :=
  ⟨rfl, C2_amended_fold_in_ascending_id_order
    [Transaction.new_dep 0 2 1, Transaction.new_wit 0 1 1] 0 [1, 2] rfl⟩

theorem amount_set_disputed (v : BasicTransaction) (b : Bool) :
    (v.set_disputed b).amount = v.amount := by
  cases v <;> rfl

theorem mem_storeInsert {s : TxnStore} {t : TxnId} {v : BasicTransaction}
    {p : TxnId × BasicTransaction} (h : p ∈ storeInsert s t v) : p = (t, v) ∨ p ∈ s := by
  induction s with
  | nil => simpa [storeInsert] using h
  | cons q rest ih =>
      obtain ⟨k, w⟩ := q
      by_cases hk : k = t
      · simp only [storeInsert, if_pos hk] at h
        rcases List.mem_cons.mp h with h | h
        · exact Or.inl h
        · exact Or.inr (List.mem_cons_of_mem _ h)
      · simp only [storeInsert, if_neg hk] at h
        rcases List.mem_cons.mp h with h | h
        · exact Or.inr (by simp [h])
        · rcases ih h with h | h
          · exact Or.inl h
          · exact Or.inr (List.mem_cons_of_mem _ h)

theorem mem_storeRemove {s : TxnStore} {t : TxnId} {p : TxnId × BasicTransaction}
    (h : p ∈ storeRemove s t) : p ∈ s := by
  induction s with
  | nil => simpa [storeRemove] using h
  | cons q rest ih =>
      obtain ⟨k, w⟩ := q
      by_cases hk : k = t
      · simp only [storeRemove, if_pos hk] at h
        exact List.mem_cons_of_mem _ h
      · simp only [storeRemove, if_neg hk] at h
        rcases List.mem_cons.mp h with h | h
        · simp [h]
        · exact List.mem_cons_of_mem _ (ih h)

theorem mem_storeSetDisputed {s : TxnStore} {t : TxnId} {b : Bool}
    {p : TxnId × BasicTransaction} (h : p ∈ storeSetDisputed s t b) :
    p ∈ s ∨ ∃ q ∈ s, p = (q.1, q.2.set_disputed b) := by
  induction s with
  | nil => simpa [storeSetDisputed] using h
  | cons q rest ih =>
      obtain ⟨k, w⟩ := q
      by_cases hk : k = t
      · simp only [storeSetDisputed, if_pos hk] at h
        rcases List.mem_cons.mp h with h | h
        · exact Or.inr ⟨(k, w), by simp, h⟩
        · exact Or.inl (List.mem_cons_of_mem _ h)
      · simp only [storeSetDisputed, if_neg hk] at h
        rcases List.mem_cons.mp h with h | h
        · exact Or.inl (by simp [h])
        · rcases ih h with h | ⟨q, hq, hpq⟩
          · exact Or.inl (List.mem_cons_of_mem _ h)
          · exact Or.inr ⟨q, List.mem_cons_of_mem _ hq, hpq⟩

theorem add_simple_txns (l : Ledger) (b : BasicTransaction) :
    (l.add_simple_transaction b).txns = l.txns
    ∨ (l.add_simple_transaction b).txns = storeInsert l.txns b.txn_id b := by
  by_cases hlk : lockedContains l.locked_clients b.client_id = true
  · left; simp [Ledger.add_simple_transaction, hlk]
  · rw [Bool.not_eq_true] at hlk
    by_cases hc : clientsContains l.clients b.client_id = true
    · obtain ⟨ids0, hids0⟩ : ∃ ids0, clientsGet l.clients b.client_id = some ids0 := by
        cases hh : clientsGet l.clients b.client_id
        · simp [clientsContains, hh] at hc
        · exact ⟨_, rfl⟩
      right; simp [Ledger.add_simple_transaction, hlk, hc, hids0]
    · rw [Bool.not_eq_true] at hc
      right; simp [Ledger.add_simple_transaction, hlk, hc, clientsGet_clientsSet]

theorem add_transaction_store_nonneg {l : Ledger} (txn : Transaction)
    (ht : ∀ a, txn.amount = some a → 0 ≤ a)
    (h : ∀ p ∈ l.txns, 0 ≤ p.2.amount) :
    ∀ p ∈ (l.add_transaction txn).txns, 0 ≤ p.2.amount := by
  cases txn with
  | Basic b =>
      intro p hp
      have hp' : p ∈ (l.add_simple_transaction b).txns := hp
      rcases add_simple_txns l b with heq | heq
      · rw [heq] at hp'; exact h _ hp'
      · rw [heq] at hp'
        rcases mem_storeInsert hp' with rfl | hmem
        · have hb : 0 ≤ b.amount := ht b.amount (by simp [Transaction.amount])
          simpa using hb
        · exact h _ hmem
  | Referential r =>
      have hset : ∀ (t : TxnId) (bl : Bool) (p : TxnId × BasicTransaction),
          p ∈ storeSetDisputed l.txns t bl → 0 ≤ p.2.amount := by
        intro t bl p hp
        rcases mem_storeSetDisputed hp with hp | ⟨q, hq, rfl⟩
        · exact h _ hp
        · simpa [amount_set_disputed] using h _ hq
      cases r with
      | Dispute cl t =>
          intro p hp
          by_cases hc : storeContains l.txns t = true
          · simp only [Ledger.add_transaction, hc, if_true] at hp
            exact hset t true p hp
          · rw [Bool.not_eq_true] at hc
            simp only [Ledger.add_transaction, hc, Bool.false_eq_true, if_false] at hp
            exact h _ hp
      | Resolve cl t =>
          intro p hp
          by_cases hc : storeContains l.txns t = true
          · simp only [Ledger.add_transaction, hc, if_true] at hp
            exact hset t false p hp
          · rw [Bool.not_eq_true] at hc
            simp only [Ledger.add_transaction, hc, Bool.false_eq_true, if_false] at hp
            exact h _ hp
      | Chargeback cl t =>
          intro p hp
          by_cases hP : (storeContains l.txns t && disputedAt l.txns t
              && clientsContains l.clients cl) = true
          · have hres : (l.add_transaction (.Referential (.Chargeback cl t))).txns
                = storeRemove l.txns t := by
              simp only [Ledger.add_transaction]
              rw [if_pos hP]
            rw [hres] at hp
            exact h _ (mem_storeRemove hp)
          · have hres : l.add_transaction (.Referential (.Chargeback cl t)) = l := by
              simp only [Ledger.add_transaction]
              rw [if_neg hP]
            rw [hres] at hp
            exact h _ hp

theorem foldl_summaryStep_nonneg (txns : TxnStore)
    (h : ∀ p ∈ txns, 0 ≤ p.2.amount) (ids : List TxnId) :
    ∀ acc : Currency × Currency, 0 ≤ acc.1 → 0 ≤ acc.2 →
      0 ≤ (ids.foldl (Ledger.summaryStep txns) acc).1
      ∧ 0 ≤ (ids.foldl (Ledger.summaryStep txns) acc).2 := by
  induction ids with
  | nil => intro acc h1 h2; exact ⟨h1, h2⟩
  | cons y ys ih =>
      intro acc h1 h2
      have hstep : 0 ≤ (Ledger.summaryStep txns acc y).1
          ∧ 0 ≤ (Ledger.summaryStep txns acc y).2 := by
        cases hg : storeGet txns y with
        | none => simpa [Ledger.summaryStep, hg] using ⟨h1, h2⟩
        | some v =>
            have hv : 0 ≤ v.amount := h _ (mem_of_storeGet hg)
            cases v with
            | Deposit c t a d =>
                have ha : 0 ≤ a := by simpa [BasicTransaction.amount] using hv
                cases d
                · simpa [Ledger.summaryStep, hg] using ⟨add_nonneg h1 ha, h2⟩
                · simpa [Ledger.summaryStep, hg] using ⟨h1, add_nonneg h2 ha⟩
            | Withdrawal c t a d =>
                have ha : 0 ≤ a := by simpa [BasicTransaction.amount] using hv
                cases d
                · by_cases hle : a ≤ acc.1
                  · have he : Ledger.summaryStep txns acc y = (acc.1 - a, acc.2) := by
                      simp [Ledger.summaryStep, hg, hle]
                    rw [he]
                    exact ⟨sub_nonneg.mpr hle, h2⟩
                  · have he : Ledger.summaryStep txns acc y = acc := by
                      simp [Ledger.summaryStep, hg, hle]
                    rw [he]
                    exact ⟨h1, h2⟩
                · by_cases hle : a ≤ acc.1
                  · have he : Ledger.summaryStep txns acc y = (acc.1 - a, acc.2 + a) := by
                      simp [Ledger.summaryStep, hg, hle]
                    rw [he]
                    exact ⟨sub_nonneg.mpr hle, add_nonneg h2 ha⟩
                  · have he : Ledger.summaryStep txns acc y = acc := by
                      simp [Ledger.summaryStep, hg, hle]
                    rw [he]
                    exact ⟨h1, h2⟩
      rw [List.foldl_cons]
      exact ih _ hstep.1 hstep.2

/-- C10: for every sequence of applied transactions whose deposit and
withdrawal amounts are all non-negative, every client summary that
projects satisfies available ≥ 0, held ≥ 0 and total ≥ 0. -/
theorem C10_summaries_nonneg (txs : List Transaction)
    (h : ∀ tx ∈ txs, ∀ a, tx.amount = some a → 0 ≤ a) :
    ∀ cid s, (Ledger.applyAll txs).calculate_client_account_summary cid = some s →
      0 ≤ s.available ∧ 0 ≤ s.held ∧ 0 ≤ s.total := by
  have hgen : ∀ (ts : List Transaction) (l : Ledger),
      (∀ tx ∈ ts, ∀ a, tx.amount = some a → 0 ≤ a) →
      (∀ p ∈ l.txns, 0 ≤ p.2.amount) →
      ∀ p ∈ (ts.foldl Ledger.add_transaction l).txns, 0 ≤ p.2.amount := by
    intro ts
    induction ts with
    | nil => intro l _ hl; exact hl
    | cons tx rest ih =>
        intro l hts hl
        exact ih _ (fun u hu => hts u (List.mem_cons_of_mem _ hu))
          (add_transaction_store_nonneg tx (hts tx (by simp)) hl)
  have hstore : ∀ p ∈ (Ledger.applyAll txs).txns, 0 ≤ p.2.amount := by
    rw [Ledger.applyAll]
    exact hgen txs Ledger.new h (by intro p hp; simp [Ledger.new] at hp)
  intro cid s hs
  simp only [Ledger.calculate_client_account_summary] at hs
  cases hg : clientsGet (Ledger.applyAll txs).clients cid with
  | none => rw [hg] at hs; simp at hs
  | some ids =>
      rw [hg] at hs
      simp only [Option.some.injEq] at hs
      have hfold := foldl_summaryStep_nonneg _ hstore ids (0, 0) le_rfl le_rfl
      rw [← hs]
      exact ⟨hfold.1, hfold.2, add_nonneg hfold.1 hfold.2⟩

/-- Witness for C10: a single non-negative deposit yields non-negative
summaries for every client. -/
theorem C10_summaries_nonneg_witness :
    (∀ tx ∈ [Transaction.new_dep 0 1 5], ∀ a, tx.amount = some a → 0 ≤ a)
    ∧ (∀ cid s, (Ledger.applyAll [Transaction.new_dep 0 1 5]).calculate_client_account_summary cid = some s →
        0 ≤ s.available ∧ 0 ≤ s.held ∧ 0 ≤ s.total) := by
  have hamt : ∀ tx ∈ [Transaction.new_dep 0 1 5], ∀ a, tx.amount = some a → 0 ≤ a := by
    intro tx htx a ha
    rw [List.mem_singleton] at htx
    subst htx
    simp only [Transaction.new_dep, Transaction.amount, BasicTransaction.new_dep,
      BasicTransaction.amount, Option.some.injEq] at ha
    subst ha
    norm_num
  exact ⟨hamt, C10_summaries_nonneg _ hamt⟩

/-- C8: full characterization of row parsing.  A row yields a
deposit/withdrawal (with `disputed = false`) exactly when it has at least
3 fields, client and txn ids parse (trimmed) in range, the trimmed kind
label is exactly `"deposit"`/`"withdrawal"` and the amount field parses as
an exact decimal; it yields a dispute/resolve/chargeback exactly when the
label matches and the amount field is absent or unparseable; every other
row is rejected. -/
theorem C8_row_parse (r : List String) (tx : Transaction) :
    Transaction.try_from r = some tx ↔
      (3 ≤ r.length
        ∧ ∃ cid tid,
            parseClientId (((r.get? 1).getD "").trim) = some cid
            ∧ parseTxnId (((r.get? 2).getD "").trim) = some tid
            ∧ ((((r.get? 0).getD "").trim = "deposit"
                  ∧ ∃ a, amountOf r = some a
                    ∧ tx = .Basic (.Deposit cid tid a false))
              ∨ (((r.get? 0).getD "").trim = "withdrawal"
                  ∧ ∃ a, amountOf r = some a
                    ∧ tx = .Basic (.Withdrawal cid tid a false))
              ∨ (((r.get? 0).getD "").trim = "dispute"
                  ∧ amountOf r = none ∧ tx = .Referential (.Dispute cid tid))
              ∨ (((r.get? 0).getD "").trim = "resolve"
                  ∧ amountOf r = none ∧ tx = .Referential (.Resolve cid tid))
              ∨ (((r.get? 0).getD "").trim = "chargeback"
                  ∧ amountOf r = none ∧ tx = .Referential (.Chargeback cid tid)))) := by
  constructor
  · intro h
    simp only [Transaction.try_from] at h
    by_cases hlen : r.length < 3
    · rw [if_pos hlen] at h
      exact Option.noConfusion h
    · rw [if_neg hlen] at h
      cases h1 : r.get? 1 with
      | none => rw [h1] at h; exact Option.noConfusion h
      | some cs =>
          simp only [h1] at h
          cases hcid : parseClientId cs.trim with
          | none => rw [hcid] at h; exact Option.noConfusion h
          | some cid =>
              simp only [hcid] at h
              cases h2 : r.get? 2 with
              | none => rw [h2] at h; exact Option.noConfusion h
              | some ts =>
                  simp only [h2] at h
                  cases htid : parseTxnId ts.trim with
                  | none => rw [htid] at h; exact Option.noConfusion h
                  | some tid =>
                      simp only [htid] at h
                      cases h0 : r.get? 0 with
                      | none => rw [h0] at h; exact Option.noConfusion h
                      | some ks =>
                          simp only [h0] at h
                          split at h
                          · rename_i a hlab hamt
                            injection h with hh
                            subst hh
                            exact ⟨by omega, cid, tid,
                              by simp only [h1, Option.getD_some]; exact hcid,
                              by simp only [h2, Option.getD_some]; exact htid,
                              Or.inl ⟨by simp only [h0, Option.getD_some]; exact hlab,
                                a, hamt, rfl⟩⟩
                          · rename_i a hlab hamt
                            injection h with hh
                            subst hh
                            exact ⟨by omega, cid, tid,
                              by simp only [h1, Option.getD_some]; exact hcid,
                              by simp only [h2, Option.getD_some]; exact htid,
                              Or.inr (Or.inl ⟨by simp only [h0, Option.getD_some]; exact hlab,
                                a, hamt, rfl⟩)⟩
                          · rename_i hlab hamt
                            injection h with hh
                            subst hh
                            exact ⟨by omega, cid, tid,
                              by simp only [h1, Option.getD_some]; exact hcid,
                              by simp only [h2, Option.getD_some]; exact htid,
                              Or.inr (Or.inr (Or.inl ⟨by simp only [h0, Option.getD_some]; exact hlab,
                                hamt, rfl⟩))⟩
                          · rename_i hlab hamt
                            injection h with hh
                            subst hh
                            exact ⟨by omega, cid, tid,
                              by simp only [h1, Option.getD_some]; exact hcid,
                              by simp only [h2, Option.getD_some]; exact htid,
                              Or.inr (Or.inr (Or.inr (Or.inl ⟨by simp only [h0, Option.getD_some]; exact hlab,
                                hamt, rfl⟩)))⟩
                          · rename_i hlab hamt
                            injection h with hh
                            subst hh
                            exact ⟨by omega, cid, tid,
                              by simp only [h1, Option.getD_some]; exact hcid,
                              by simp only [h2, Option.getD_some]; exact htid,
                              Or.inr (Or.inr (Or.inr (Or.inr ⟨by simp only [h0, Option.getD_some]; exact hlab,
                                hamt, rfl⟩)))⟩
                          · exact Option.noConfusion h
  · rintro ⟨hlen, cid, tid, hcid, htid, hcase⟩
    obtain ⟨cs, h1⟩ : ∃ cs, r.get? 1 = some cs := by
      cases hh : r.get? 1 with
      | none => rw [List.get?_eq_none] at hh; omega
      | some cs => exact ⟨_, rfl⟩
    obtain ⟨ts, h2⟩ : ∃ ts, r.get? 2 = some ts := by
      cases hh : r.get? 2 with
      | none => rw [List.get?_eq_none] at hh; omega
      | some ts => exact ⟨_, rfl⟩
    obtain ⟨ks, h0⟩ : ∃ ks, r.get? 0 = some ks := by
      cases hh : r.get? 0 with
      | none => rw [List.get?_eq_none] at hh; omega
      | some ks => exact ⟨_, rfl⟩
    rw [h1, Option.getD_some] at hcid
    rw [h2, Option.getD_some] at htid
    rw [h0, Option.getD_some] at hcase
    simp only [Transaction.try_from, if_neg (by omega : ¬ r.length < 3), h1, hcid, h2, htid, h0]
    rcases hcase with ⟨hlab, a, hamt, rfl⟩ | ⟨hlab, a, hamt, rfl⟩ | ⟨hlab, hamt, rfl⟩
      | ⟨hlab, hamt, rfl⟩ | ⟨hlab, hamt, rfl⟩ <;>
      simp only [hlab, hamt] <;> rfl
